import Mathlib

/-!
# Verification of the real-time market-data hub (stellar-stock-screener-v2)

Shallow embedding of the core subsystem of `backend/app`:
the chart resampler (`technical_service.resample_chart_data`),
the active-interest registry (`redis_service.RedisManager`),
the backend-mode selection (`RedisManager._get_connection`),
the stream hub (`stream_hub.StreamProducer` / `StreamConsumer`), and
the symbol normalizer (`eodhd_service.format_symbol_for_eodhd`).

Prices and times are modelled as exact rationals / naturals (the Python
code uses floats and unix-second integers); strings are modelled as Lean
`String` or `List Char` where character-level reasoning is needed.
-/

namespace StellarHub

/-! ## Chart resampler (`technical_service.resample_chart_data`)

A `Candle` is one OHLCV bar, `time` in epoch seconds.  `resample_chart_data`
in the source converts the list of candle dicts to a pandas DataFrame indexed
by `to_datetime(time)`, applies `df.resample(rule).agg(open=first, high=max,
low=min, close=last, volume=sum)`, drops the all-NaN rows (empty buckets) and
converts the index back to epoch seconds.  For the four offset aliases used
("15min", "30min", "1h", "4h") the bucket length divides 86400 s, so with
pandas' default `origin="start_day"`, `closed="left"`, `label="left"` the
bucket containing time `t` is exactly `(t / delta) * delta` (Nat division)
and the output row is labelled with that left edge.  The embedding below
realises precisely this semantics: one row per bucket between the minimal
and maximal occupied bucket, aggregated over the candles falling in it,
with the empty (all-NaN) rows dropped. -/


structure Candle where
  time : Nat
  «open» : ℚ
  high : ℚ
  low : ℚ
  close : ℚ
  volume : ℚ
  deriving Repr, DecidableEq


/-- The `mapping` dict in `resample_chart_data`: frontend timeframe →
pandas offset alias (`mapping.get(target_interval)`). -/

def timeframe_mapping (target_interval : String) : Option String :=
  if target_interval = "15M" then some "15min"
  else if target_interval = "30M" then some "30min"
  else if target_interval = "1H" then some "1h"
  else if target_interval = "4H" then some "4h"
  else none


/-- Length in seconds of the pandas offset aliases that occur in
`timeframe_mapping` (the semantics of `df.resample(rule)` for these rules). -/

def ruleSeconds (rule : String) : Nat :=
  if rule = "15min" then 900
  else if rule = "30min" then 1800
  else if rule = "1h" then 3600
  else 14400


/-- The candles of `data` that fall into the resampling bucket `k`
(pandas groups row `c` into the bin with left edge `(c.time / delta) * delta`). -/

def bucketCandles (data : List Candle) (delta k : Nat) : List Candle :=
  data.filter (fun c => c.time / delta == k)


/-- The aggregated output row for a non-empty bucket `k` (`agg` with
`open=first, high=max, low=min, close=last, volume=sum`, row label =
left bucket edge converted back to epoch seconds). -/

def aggRow (delta k : Nat) (b : Candle) (bs : List Candle) : Candle :=
  { time := k * delta
    «open» := b.«open»
    high := (bs.map (·.high)).foldl max b.high
    low := (bs.map (·.low)).foldl min b.low
    close := (bs.getLastD b).close
    volume := ((b :: bs).map (·.volume)).sum }


/-- Function `resample_chart_data` from `technical_service.py`.  Returns `[]` for
fewer than two candles, the input unchanged when the timeframe has no
pandas rule, and otherwise one aggregated row per non-empty bucket
(pandas generates the bins from the minimal to the maximal occupied bin;
`dropna` removes the bins containing no candle). -/

def resample_chart_data (chart_data : List Candle) (target_interval : String) :
    List Candle :=
  if chart_data.length < 2 then []
  else
    match timeframe_mapping target_interval with
    | none => chart_data
    | some rule =>
      match chart_data with
      | [] => []
      | c :: rest =>
        let delta := ruleSeconds rule
        let keys := (c :: rest).map (fun x => x.time / delta)
        let kmin := keys.foldl min (c.time / delta)
        let kmax := keys.foldl max (c.time / delta)
        ((List.range (kmax + 1 - kmin)).map (· + kmin)).filterMap
          (fun k =>
            match bucketCandles (c :: rest) delta k with
            | [] => none
            | b :: bs => some (aggRow delta k b bs))


/-- Five consecutive 5-minute candles, all inside one 1-hour (and one 1-day)
bucket; volumes 100 each. -/

def sampleCandles : List Candle :=
  [⟨0, 10, 12, 9, 11, 100⟩, ⟨300, 11, 14, 10, 13, 100⟩, ⟨600, 13, 13, 8, 9, 100⟩,
   ⟨900, 9, 15, 9, 12, 100⟩, ⟨1200, 12, 16, 11, 13, 100⟩]


/-! ## Active-interest registry (`redis_service.RedisManager`)

`add_active_symbol` / `get_active_symbols` have a Redis branch (SADD to
`active_symbols_v2` plus `SETEX heartbeat:{sym} 15`, then `SMEMBERS` /
`EXISTS` / `SREM`) and a local-memory branch (`local_storage["active"]`
set plus `local_storage["heartbeats"][sym] = time.time() + 15`).  Times
are modelled as exact rationals; a SETEX key with TTL 15 written at `T`
exists at `now` iff `now < T + 15`. -/


structure LocalStorage where
  active : List String
  heartbeats : String → Option ℚ


def emptyLocalStorage : LocalStorage := ⟨[], fun _ => none⟩


/-- Local branch of `RedisManager.add_active_symbol`:
`local_storage["active"].add(symbol)`;
`local_storage["heartbeats"][symbol] = time.time() + 15`. -/

def local_add_active_symbol (st : LocalStorage) (symbol : String) (now : ℚ) :
    LocalStorage :=
  { active := if symbol ∈ st.active then st.active else st.active ++ [symbol]
    heartbeats := fun x => if x = symbol then some (now + 15) else st.heartbeats x }


/-- Test `sym in local_storage["heartbeats"] and now < local_storage["heartbeats"][sym]`. -/
def localAlive (st : LocalStorage) (now : ℚ) (sym : String) : Bool :=
  match st.heartbeats sym with
  | some e => decide (now < e)
  | none => false


/-- Local branch of `RedisManager.get_active_symbols`: returns the alive
symbols and discards every other symbol from the active set. -/

def local_get_active_symbols (st : LocalStorage) (now : ℚ) :
    List String × LocalStorage :=
  (st.active.filter (localAlive st now),
   { st with active := st.active.filter (localAlive st now) })


structure RedisStore where
  members : List String
  heartbeatExpiry : String → Option ℚ


/-- Redis branch of `add_active_symbol`: `SADD active_symbols_v2 symbol`;
`SETEX heartbeat:{symbol} 15 "alive"`. -/

def redis_add_active_symbol (st : RedisStore) (symbol : String) (now : ℚ) :
    RedisStore :=
  { members := if symbol ∈ st.members then st.members else st.members ++ [symbol]
    heartbeatExpiry := fun x =>
      if x = symbol then some (now + 15) else st.heartbeatExpiry x }


/-- Test `EXISTS heartbeat:{sym}` at time `now`. -/
def heartbeatExists (st : RedisStore) (now : ℚ) (sym : String) : Bool :=
  match st.heartbeatExpiry sym with
  | some e => decide (now < e)
  | none => false


/-- Redis branch of `get_active_symbols`: keeps the members whose heartbeat
key still exists and `SREM`s the rest. -/

def redis_get_active_symbols (st : RedisStore) (now : ℚ) :
    List String × RedisStore :=
  (st.members.filter (heartbeatExists st now),
   { st with members := st.members.filter (heartbeatExists st now) })


/-! ## Backend-mode selection (`RedisManager._get_connection`) -/


structure ManagerState where
  redis : Option ℕ
  use_redis : Bool
  checked : Bool


/-- Environment of one `_get_connection` call: whether `REDIS_URL` is set
and not the unreachable `railway.internal` URL, and the outcome of the
1-second ping probe (`none` = exception, `some c` = the pooled client). -/

structure ProbeEnv where
  urlOk : Bool
  probe : Option ℕ


/-- Method `RedisManager._get_connection`: once `self._checked` is set the stored
choice is returned without touching the environment again. -/

def get_connection (env : ProbeEnv) (st : ManagerState) :
    Option ℕ × ManagerState :=
  if st.checked then
    (if st.use_redis then st.redis else none, st)
  else if env.urlOk = false then
    (none, { st with use_redis := false, checked := true })
  else
    match env.probe with
    | some c => (some c, { redis := some c, use_redis := true, checked := true })
    | none => (none, { st with use_redis := false, checked := true })


/-! ## Leader election (`StreamProducer._manage_master_status`) -/


/-- The methods defined on `RedisManager` in `redis_service.py`.  Neither
`acquire_lock` nor `extend_lock` is among them, although
`_manage_master_status` calls both on the `redis_client` singleton. -/

def redisManagerMethods : List String :=
  ["__init__", "_get_connection", "add_active_symbol", "get_active_symbols",
   "publish_update", "get_subscriber", "get_cache", "set_cache"]


inductive PyError where
  | attributeError
  deriving Repr, DecidableEq


/-- Python attribute lookup on the `redis_client` singleton: raises
`AttributeError` when `RedisManager` defines no such method. -/

def lookupMethod (methods : List String) (name : String) :
    Except PyError String :=
  if name ∈ methods then Except.ok name else Except.error PyError.attributeError


/-- One iteration of the `while self.is_running` body of
`_manage_master_status`, as a function of `self.is_master`.  The `try`
block first evaluates `redis_client.acquire_lock(...)`; if the attribute
lookup raises, the `except Exception` clause only logs and the flag is
unchanged.  `acquireOutcome` is what the lock call would return if the
lookup succeeded. -/

def manage_master_iteration (acquireOutcome : Bool) (is_master : Bool) : Bool :=
  match lookupMethod redisManagerMethods "acquire_lock" with
  | Except.error _ => is_master
  | Except.ok _ =>
    if acquireOutcome then true
    else if is_master then false else is_master


/-! ## Poller lanes (`stream_hub.StreamProducer`) -/


/-- Table `FYERS_MAP` from `stream_hub.py` (internal id → Fyers symbol). -/
def FYERS_MAP : List (String × String) :=
  [("NSEI.INDX", "NSE:NIFTY50-INDEX"), ("NSEBANK.INDX", "NSE:NIFTYBANK-INDEX"),
   ("BSESN.INDX", "BSE:SENSEX-INDEX"), ("INDIAVIX.INDX", "NSE:INDIAVIX-INDEX"),
   ("RELIANCE.NSE", "NSE:RELIANCE-EQ"), ("HDFCBANK.NSE", "NSE:HDFCBANK-EQ"),
   ("ICICIBANK.NSE", "NSE:ICICIBANK-EQ"), ("INFY.NSE", "NSE:INFY-EQ"),
   ("TCS.NSE", "NSE:TCS-EQ"), ("SBIN.NSE", "NSE:SBIN-EQ")]


/-- Table `FMP_ASSETS` from `stream_hub.py`. -/
def FMP_ASSETS : List String :=
  ["BTC-USD.CC", "ETH-USD.CC", "SOL-USD.CC", "XRP-USD.CC", "DOGE-USD.CC",
   "ADA-USD.CC", "MATIC-USD.CC", "DOT-USD.CC", "LTC-USD.CC", "BNB-USD.CC"]


/-- Table `YAHOO_MAP` from `stream_hub.py` (Yahoo ticker → internal id). -/
def YAHOO_MAP : List (String × String) :=
  [("CL=F", "USO.US"), ("GC=F", "XAU-USD.CC"), ("SI=F", "XAG-USD.CC"),
   ("NG=F", "UNG.US"), ("HG=F", "HGUSD"), ("BZ=F", "UKOIL")]


/-- The symbols `_poll_fmp_assets` passes to
`fmp_service.get_crypto_real_time_bulk` on every cycle — the fixed
`FMP_ASSETS` list, independent of the active-interest registry. -/

def poll_fmp_fetch_symbols : List String := FMP_ASSETS


/-- The tickers `_poll_yahoo_assets` passes to `yf.Tickers` on every
cycle — the fixed `YAHOO_MAP` key list, independent of the registry. -/

def poll_yahoo_fetch_symbols : List String := YAHOO_MAP.map Prod.fst


/-- List `targets` in `_poll_eodhd_assets`: the active symbols minus the VIP
assets handled by the other lanes. -/

def eodhd_targets (active_list : List String) : List String :=
  active_list.filter (fun s =>
    !(FMP_ASSETS.contains s) && !((FYERS_MAP.map Prod.fst).contains s) &&
      !((YAHOO_MAP.map Prod.snd).contains s))


/-- Loop `for i in range(0, len(targets), 50): chunk = targets[i:i+50]`. -/
def chunked50 : List String → List (List String)
  | [] => []
  | x :: xs => (x :: xs).take 50 :: chunked50 ((x :: xs).drop 50)
termination_by l => l.length
decreasing_by
  simp [List.length_drop]
  omega


/-- The chunks `_poll_eodhd_assets` passes to
`eodhd_service.get_real_time_bulk`. -/

def poll_eodhd_fetch_chunks (active_list : List String) : List (List String) :=
  chunked50 (eodhd_targets active_list)


/-! ## Fan-out (`StreamConsumer`)

`active_sockets : Dict[str, List[WebSocket]]` is modelled as a total
function from symbols to subscriber lists, the empty list standing for an
absent key (Python's `del` of an emptied list and a missing key are
indistinguishable through `in` / iteration).  Connections are opaque
naturals. -/


def Sockets : Type := String → List ℕ


/-- Method `StreamConsumer.disconnect`: remove the first occurrence of the
websocket from the symbol's list (and drop the key when it empties). -/

def consumer_disconnect (socks : Sockets) (ws : ℕ) (symbol : String) :
    Sockets :=
  fun k => if k = symbol then (socks symbol).erase ws else socks k


/-- Method `StreamConsumer._broadcast_to_list`: send to every registered
connection of `key`, collect the connections whose send raised in `dead`,
then disconnect exactly those.  `sendFails` records which sends raise. -/

def broadcast_to_list (socks : Sockets) (key : String) (sendFails : ℕ → Bool) :
    Sockets :=
  if socks key = [] then socks
  else
    ((socks key).filter sendFails).foldl
      (fun s ws => consumer_disconnect s ws key) socks


/-- Subscriber table used by the `broadcast_removes_exactly_failed`
witness: three subscribers of "AAPL.US", one of "MSFT.US". -/

def socketsFixture : Sockets :=
  fun k => if k = "AAPL.US" then [1, 2, 3] else if k = "MSFT.US" then [4] else []


/-! ## Fyers push lane (`on_message` inside `_run_fyers_engine`) -/


structure FyersMsg where
  isDict : Bool
  symbol : Option String
  ltp : Option ℚ
  ch : Option ℚ
  chp : Option ℚ
  exch_feed_time : Option ℕ


structure TickPayload where
  price : Option ℚ
  change : ℚ
  percent_change : ℚ
  timestamp : Option ℕ
  deriving Repr, DecidableEq


/-- The Fyers `on_message` callback: returns the `(symbol, payload)` the
handler publishes to the bus, or `none` when nothing is published.  The
first line is the split-brain guard
`if not self.is_master: return`. -/

def on_message (is_master : Bool) (msg : FyersMsg) :
    Option (String × TickPayload) :=
  if is_master = false then none
  else if msg.isDict && msg.symbol.isSome && msg.ltp.isSome then
    let fyers_sym := msg.symbol.getD ""
    let internal0 := (FYERS_MAP.find? (fun p => p.2 == fyers_sym)).map Prod.fst
    let internal_sym :=
      match internal0 with
      | some v => some v
      | none =>
        if fyers_sym.startsWith "NSE:" &&
            decide (2 ≤ (fyers_sym.splitOn "-EQ").length) then
          some (((fyers_sym.replace "NSE:" "").replace "-EQ" "") ++ ".NSE")
        else none
    match internal_sym with
    | some s =>
      some (s, { price := msg.ltp, change := msg.ch.getD 0,
                 percent_change := msg.chp.getD 0,
                 timestamp := msg.exch_feed_time })
    | none => none
  else none


/-! ## Live websocket endpoint (`routers/live.py` `websocket_endpoint`)
and `StreamConsumer.connect`

`StreamConsumer.connect` registers the socket and touches the registry
once.  The mounted live endpoint then loops fetch→send→sleep; it never
calls `receive` and never touches the registry again, so inbound client
messages (keep-alive pings) have no effect on the registry state. -/


/-- Method `StreamConsumer.connect`: append the socket under the symbol and call
`add_active_symbol` (the registry in local-memory mode). -/

def consumer_connect (socks : Sockets) (registry : LocalStorage) (ws : ℕ)
    (symbol : String) (now : ℚ) : Sockets × LocalStorage :=
  ((fun k => if k = symbol then socks symbol ++ [ws] else socks k),
   local_add_active_symbol registry symbol now)


structure LiveQuote where
  price : Option ℚ
  change : Option ℚ
  changesPercentage : Option ℚ
  volume : Option ℚ
  timestamp : Option ℕ


structure WsPayload where
  price : ℚ
  change : Option ℚ
  percent_change : Option ℚ
  volume : Option ℚ
  timestamp : Option ℕ


/-- One iteration of the `while True` body of `websocket_endpoint` in
`live.py`: fetch a quote, and if it is truthy with a truthy price, send
the payload.  The registry is threaded through to record that no
iteration touches it (the endpoint performs no `receive` and no
`add_active_symbol`). -/

def websocket_endpoint_iteration (registry : LocalStorage)
    (fetch : Option LiveQuote) (sent : List WsPayload) :
    LocalStorage × List WsPayload :=
  match fetch with
  | none => (registry, sent)
  | some q =>
    match q.price with
    | none => (registry, sent)
    | some p =>
      if p = 0 then (registry, sent)
      else (registry, sent ++ [⟨p, q.change, q.changesPercentage, q.volume,
        q.timestamp⟩])


/-- The endpoint loop over a sequence of fetch results. -/
def websocket_endpoint_run (registry : LocalStorage)
    (fetches : List (Option LiveQuote)) : LocalStorage × List WsPayload :=
  fetches.foldl (fun acc f => websocket_endpoint_iteration acc.1 f acc.2)
    (registry, [])


/-! ## Symbol normalizer (`eodhd_service.format_symbol_for_eodhd`)

Strings are modelled as `List Char`; Python's `str.upper()` / `str.strip()`
as character-wise ASCII upper-casing and whitespace trimming, and
`str.replace(old, new)` as the left-to-right replacement of every
occurrence.  `endswith(p)` is `p.isSuffixOf`, `"." in s` is `'.' ∈ s`. -/


def pyUpper (s : List Char) : List Char := s.map Char.toUpper


def pyStrip (s : List Char) : List Char :=
  ((s.dropWhile Char.isWhitespace).reverse.dropWhile Char.isWhitespace).reverse


/-- Call `symbol.replace(".NS", ".NSE")`. -/
def replaceNS : List Char → List Char
  | '.' :: 'N' :: 'S' :: rest => '.' :: 'N' :: 'S' :: 'E' :: replaceNS rest
  | c :: rest => c :: replaceNS rest
  | [] => []


/-- Call `symbol.replace(".BO", ".BSE")`. -/
def replaceBO : List Char → List Char
  | '.' :: 'B' :: 'O' :: rest => '.' :: 'B' :: 'S' :: 'E' :: replaceBO rest
  | c :: rest => c :: replaceBO rest
  | [] => []


/-- The branch chain of `format_symbol_for_eodhd` applied to the already
upper-cased and stripped symbol. -/

def format_core (sym : List Char) : List Char :=
  if ['.', 'N', 'S'].isSuffixOf sym then replaceNS sym
  else if ['.', 'B', 'O'].isSuffixOf sym then replaceBO sym
  else if sym = "^NSEI".toList then "NSEI.INDX".toList
  else if sym = "^NSEBANK".toList then "NSEBANK.INDX".toList
  else if sym = "^BSESN".toList then "BSESN.INDX".toList
  else if sym = "^GSPC".toList then "GSPC.INDX".toList
  else if sym = "^DJI".toList then "DJI.INDX".toList
  else if sym = "^IXIC".toList then "IXIC.INDX".toList
  else if sym = "^N225".toList then "N225.INDX".toList
  else if sym = "^GDAXI".toList then "GDAXI.INDX".toList
  else if sym = "BTC-USD".toList then "BTC-USD.CC".toList
  else if sym = "ETH-USD".toList then "ETH-USD.CC".toList
  else if '.' ∉ sym then sym ++ ".US".toList
  else sym


/-- Function `format_symbol_for_eodhd` from `eodhd_service.py`: empty (falsy) input
comes straight back; otherwise the symbol is upper-cased, stripped, and run
through the aliasing chain. -/

def format_symbol_for_eodhd (symbol : List Char) : List Char :=
  if symbol = [] then [] else format_core (pyStrip (pyUpper symbol))


/-! ### Helper lemmas about `foldl min` / `foldl max` -/


lemma foldl_min_le_init {α : Type*} [LinearOrder α] (l : List α) (i : α) :
    l.foldl min i ≤ i := by
  induction l generalizing i with
  | nil => exact le_refl i
  | cons x xs ih => exact le_trans (ih (min i x)) (min_le_left i x)


lemma foldl_min_le_mem {α : Type*} [LinearOrder α] (l : List α) (i x : α)
    (hx : x ∈ l) : l.foldl min i ≤ x := by
  induction l generalizing i with
  | nil => cases hx
  | cons y ys ih =>
    rcases List.mem_cons.1 hx with h | h
    · subst h
      exact le_trans (foldl_min_le_init ys (min i x)) (min_le_right i x)
    · exact ih (min i y) h


lemma init_le_foldl_max {α : Type*} [LinearOrder α] (l : List α) (i : α) :
    i ≤ l.foldl max i := by
  induction l generalizing i with
  | nil => exact le_refl i
  | cons x xs ih => exact le_trans (le_max_left i x) (ih (max i x))


lemma mem_le_foldl_max {α : Type*} [LinearOrder α] (l : List α) (i x : α)
    (hx : x ∈ l) : x ≤ l.foldl max i := by
  induction l generalizing i with
  | nil => cases hx
  | cons y ys ih =>
    rcases List.mem_cons.1 hx with h | h
    · subst h
      exact le_trans (le_max_right i x) (init_le_foldl_max ys (max i x))
    · exact ih (max i y) h


lemma foldl_max_mem {α : Type*} [LinearOrder α] (l : List α) (i : α) :
    l.foldl max i = i ∨ l.foldl max i ∈ l := by
  induction l generalizing i with
  | nil => exact Or.inl rfl
  | cons x xs ih =>
    rcases ih (max i x) with h | h
    · rcases max_choice i x with hc | hc
      · exact Or.inl (by simpa [hc] using h)
      · exact Or.inr (by rw [List.foldl_cons, h, hc]; exact List.mem_cons_self x xs)
    · exact Or.inr (List.mem_cons_of_mem x h)


lemma foldl_min_mem {α : Type*} [LinearOrder α] (l : List α) (i : α) :
    l.foldl min i = i ∨ l.foldl min i ∈ l := by
  induction l generalizing i with
  | nil => exact Or.inl rfl
  | cons x xs ih =>
    rcases ih (min i x) with h | h
    · rcases min_choice i x with hc | hc
      · exact Or.inl (by simpa [hc] using h)
      · exact Or.inr (by rw [List.foldl_cons, h, hc]; exact List.mem_cons_self x xs)
    · exact Or.inr (List.mem_cons_of_mem x h)


/-- Value `ruleSeconds rule` is positive for every pandas rule string. -/
lemma ruleSeconds_pos (rule : String) : 0 < ruleSeconds rule := by
  unfold ruleSeconds
  split <;> try norm_num
  split <;> try norm_num
  split <;> norm_num


/-- In a candle list that is pairwise time-ordered, every element's time is
bounded by the time of the `getLastD` element. -/

lemma time_le_getLastD (bs : List Candle) (b : Candle)
    (h : (b :: bs).Pairwise (fun a c => a.time ≤ c.time)) :
    ∀ x ∈ b :: bs, x.time ≤ (bs.getLastD b).time := by
  induction bs generalizing b with
  | nil =>
    intro x hx
    rcases List.mem_cons.1 hx with h0 | h0
    · subst h0; exact le_refl _
    · cases h0
  | cons y ys ih =>
    have hpair := List.pairwise_cons.1 h
    intro x hx
    rw [List.getLastD_cons]
    rcases List.mem_cons.1 hx with h0 | h0
    · subst h0
      have hxy : x.time ≤ y.time := hpair.1 y (List.mem_cons_self y ys)
      exact le_trans hxy (ih y hpair.2 y (List.mem_cons_self y ys))
    · exact ih y hpair.2 x h0


/-- Unfolding of `resample_chart_data` in the supported-rule case. -/
lemma resample_eq_filterMap (c : Candle) (rest : List Candle)
    (target rule : String)
    (hmap : timeframe_mapping target = some rule)
    (hlen : ¬ (c :: rest).length < 2) :
    resample_chart_data (c :: rest) target =
      ((List.range
          (((c :: rest).map (fun x => x.time / ruleSeconds rule)).foldl max
              (c.time / ruleSeconds rule) + 1 -
            ((c :: rest).map (fun x => x.time / ruleSeconds rule)).foldl min
              (c.time / ruleSeconds rule))).map
          (· + ((c :: rest).map (fun x => x.time / ruleSeconds rule)).foldl min
              (c.time / ruleSeconds rule))).filterMap
        (fun k =>
          match bucketCandles (c :: rest) (ruleSeconds rule) k with
          | [] => none
          | b :: bs => some (aggRow (ruleSeconds rule) k b bs)) := by
  rw [resample_chart_data, if_neg hlen, hmap]


/-- Every candle's bucket key lies in the generated key range. -/
lemma bucket_key_mem_range (c : Candle) (rest : List Candle) (delta : Nat)
    (x : Candle) (hx : x ∈ c :: rest) :
    x.time / delta ∈
      (List.range
          (((c :: rest).map (fun t => t.time / delta)).foldl max (c.time / delta) + 1 -
            ((c :: rest).map (fun t => t.time / delta)).foldl min (c.time / delta))).map
        (· + ((c :: rest).map (fun t => t.time / delta)).foldl min (c.time / delta)) := by
  have hmem : x.time / delta ∈ (c :: rest).map (fun t => t.time / delta) :=
    List.mem_map.2 ⟨x, hx, rfl⟩
  have h1 := foldl_min_le_mem ((c :: rest).map (fun t => t.time / delta))
    (c.time / delta) _ hmem
  have h2 := mem_le_foldl_max ((c :: rest).map (fun t => t.time / delta))
    (c.time / delta) _ hmem
  refine List.mem_map.2
    ⟨x.time / delta -
        ((c :: rest).map (fun t => t.time / delta)).foldl min (c.time / delta),
      List.mem_range.2 (by omega), by omega⟩


/-- In a candle list with strictly increasing times, each member's time is
hit by exactly one entry. -/

lemma countP_time_eq_one (l : List Candle)
    (hp : l.Pairwise (fun a b => a.time < b.time)) (o : Candle) (ho : o ∈ l) :
    l.countP (fun x => x.time == o.time) = 1 := by
  induction l with
  | nil => cases ho
  | cons a tl ih =>
    have hpc := List.pairwise_cons.1 hp
    rcases List.mem_cons.1 ho with h | h
    · subst h
      have h0 : tl.countP (fun x => x.time == o.time) = 0 :=
        List.countP_eq_zero.2 (fun b hb => by
          have := hpc.1 b hb
          simp only [beq_iff_eq]
          omega)
      rw [List.countP_cons, h0]
      simp
    · have ha : ¬ (a.time == o.time) = true := by
        have := hpc.1 o h
        simp only [beq_iff_eq]
        omega
      rw [List.countP_cons, ih hpc.2 h]
      simp [ha]


/-- C3 (amended to the supported target resolutions): for a time-ordered
series of at least two candles and a target interval that has a pandas rule
(15M/30M/1H/4H), `resample_chart_data` produces exactly one output row per
non-empty bucket `k` (the bucket of candle `c` being `c.time / delta`),
omits empty buckets, and each output row carries open = the bucket's first
candle's open, close = the last candle's close, high/low = the extrema and
volume = the sum over the bucket. -/

theorem resample_supported_bucket_spec
    (data : List Candle) (target rule : String)
    (hmap : timeframe_mapping target = some rule)
    (hsorted : data.Pairwise (fun a b => a.time ≤ b.time))
    (hlen : 2 ≤ data.length) :
    (∀ k : Nat, bucketCandles data (ruleSeconds rule) k ≠ [] →
        (resample_chart_data data target).countP
          (fun o => o.time == k * ruleSeconds rule) = 1)
    ∧ (∀ k : Nat, bucketCandles data (ruleSeconds rule) k = [] →
        ∀ out ∈ resample_chart_data data target, out.time ≠ k * ruleSeconds rule)
    ∧ (∀ out ∈ resample_chart_data data target, ∃ k b z,
        (bucketCandles data (ruleSeconds rule) k).head? = some b ∧
        (bucketCandles data (ruleSeconds rule) k).getLast? = some z ∧
        out.time = k * ruleSeconds rule ∧
        out.«open» = b.«open» ∧ out.close = z.close ∧
        (∀ x ∈ bucketCandles data (ruleSeconds rule) k,
            b.time ≤ x.time ∧ x.time ≤ z.time ∧
            x.high ≤ out.high ∧ out.low ≤ x.low) ∧
        out.high ∈ (bucketCandles data (ruleSeconds rule) k).map (·.high) ∧
        out.low ∈ (bucketCandles data (ruleSeconds rule) k).map (·.low) ∧
        out.volume =
          ((bucketCandles data (ruleSeconds rule) k).map (·.volume)).sum) := by
  match data, hlen with
  | c :: rest, hlen =>
  have hdpos : 0 < ruleSeconds rule := ruleSeconds_pos rule
  set delta := ruleSeconds rule with hdelta
  have hres := resample_eq_filterMap c rest target rule hmap
    (by simp at hlen ⊢; omega)
  set K := (List.range
      (((c :: rest).map (fun x => x.time / delta)).foldl max (c.time / delta) + 1 -
        ((c :: rest).map (fun x => x.time / delta)).foldl min (c.time / delta))).map
      (· + ((c :: rest).map (fun x => x.time / delta)).foldl min (c.time / delta))
    with hK
  set f := (fun k =>
      match bucketCandles (c :: rest) delta k with
      | [] => none
      | b :: bs => some (aggRow delta k b bs)) with hf
  -- basic facts about `f`
  have hfchar : ∀ k out, f k = some out →
      ∃ b bs, bucketCandles (c :: rest) delta k = b :: bs ∧
        out = aggRow delta k b bs := by
    intro k out hout
    rcases hbk : bucketCandles (c :: rest) delta k with _ | ⟨b, bs⟩
    · rw [hf] at hout; simp [hbk] at hout
    · rw [hf] at hout; simp only [hbk, Option.some.injEq] at hout
      exact ⟨b, bs, rfl, hout.symm⟩
  have hKpair : K.Pairwise (· < ·) :=
    (List.pairwise_lt_range _).map _ (fun a b hab => by omega)
  -- strictly increasing output times
  have hPout : (resample_chart_data (c :: rest) target).Pairwise
      (fun a b => a.time < b.time) := by
    rw [hres]
    refine List.pairwise_filterMap.2 (hKpair.imp ?_)
    intro a b hab x hx y hy
    rw [Option.mem_def] at hx hy
    rcases hfchar a x hx with ⟨b1, bs1, _, hx1⟩
    rcases hfchar b y hy with ⟨b2, bs2, _, hy1⟩
    rw [hx1, hy1]
    exact Nat.mul_lt_mul_of_pos_right hab hdpos
  -- a non-empty bucket's key is in the key range
  have hkeyK : ∀ k, bucketCandles (c :: rest) delta k ≠ [] → k ∈ K := by
    intro k hk
    rcases hb : bucketCandles (c :: rest) delta k with _ | ⟨b, bs⟩
    · exact absurd hb hk
    have hbmem : b ∈ bucketCandles (c :: rest) delta k := by
      rw [hb]; exact List.mem_cons_self b bs
    have hbmem' := List.mem_filter.1 hbmem
    have hkb : b.time / delta = k := by simpa using hbmem'.2
    have := bucket_key_mem_range c rest delta b hbmem'.1
    rw [hkb] at this
    exact this
  -- membership of the aggregated row
  have hmemOut : ∀ k b bs, bucketCandles (c :: rest) delta k = b :: bs →
      aggRow delta k b bs ∈ resample_chart_data (c :: rest) target := by
    intro k b bs hbk
    rw [hres]
    refine List.mem_filterMap.2 ⟨k, hkeyK k (by rw [hbk]; simp), ?_⟩
    rw [hf]; simp only [hbk]
  refine ⟨?_, ?_, ?_⟩
  · -- exactly one row per non-empty bucket
    intro k hk
    rcases hbk : bucketCandles (c :: rest) delta k with _ | ⟨b, bs⟩
    · exact absurd hbk hk
    have hmem := hmemOut k b bs hbk
    have := countP_time_eq_one _ hPout _ hmem
    simpa [aggRow] using this
  · -- empty buckets are omitted
    intro k hk out hout heq
    rw [hres] at hout
    rcases List.mem_filterMap.1 hout with ⟨k', _, hfk'⟩
    rcases hfchar k' out hfk' with ⟨b, bs, hbk', hout'⟩
    have htime' : out.time = k' * delta := by rw [hout']; rfl
    have : k' = k := Nat.eq_of_mul_eq_mul_right hdpos (by rw [← htime', heq])
    rw [this] at hbk'
    rw [hk] at hbk'
    cases hbk'
  · -- field characterization of every output row
    intro out hout
    rw [hres] at hout
    rcases List.mem_filterMap.1 hout with ⟨k, _, hfk⟩
    rcases hfchar k out hfk with ⟨b, bs, hbk, hout'⟩
    have hbpair : (b :: bs).Pairwise (fun a c => a.time ≤ c.time) := by
      rw [← hbk]
      exact hsorted.filter _
    refine ⟨k, b, bs.getLastD b, ?_, ?_, ?_, ?_, ?_, ?_, ?_, ?_, ?_⟩
    · rw [hbk]; rfl
    · rw [hbk, List.getLast?_cons, List.getLastD_eq_getLast?]
    · rw [hout']; rfl
    · rw [hout']; rfl
    · rw [hout']; rfl
    · intro x hx
      rw [hbk] at hx
      have hpc := List.pairwise_cons.1 hbpair
      refine ⟨?_, time_le_getLastD bs b hbpair x hx, ?_, ?_⟩
      · rcases List.mem_cons.1 hx with h | h
        · subst h; exact le_refl _
        · exact hpc.1 x h
      · rw [hout']
        rcases List.mem_cons.1 hx with h | h
        · subst h; exact init_le_foldl_max _ _
        · exact mem_le_foldl_max _ _ _ (List.mem_map.2 ⟨x, h, rfl⟩)
      · rw [hout']
        rcases List.mem_cons.1 hx with h | h
        · subst h; exact foldl_min_le_init _ _
        · exact foldl_min_le_mem _ _ _ (List.mem_map.2 ⟨x, h, rfl⟩)
    · rw [hout', hbk]
      rcases foldl_max_mem (bs.map (·.high)) b.high with h | h
      · exact List.mem_map.2 ⟨b, List.mem_cons_self b bs, by simp [aggRow, h]⟩
      · rcases List.mem_map.1 h with ⟨x, hx, hx2⟩
        exact List.mem_map.2 ⟨x, List.mem_cons_of_mem b hx, by simp [aggRow, hx2]⟩
    · rw [hout', hbk]
      rcases foldl_min_mem (bs.map (·.low)) b.low with h | h
      · exact List.mem_map.2 ⟨b, List.mem_cons_self b bs, by simp [aggRow, h]⟩
      · rcases List.mem_map.1 h with ⟨x, hx, hx2⟩
        exact List.mem_map.2 ⟨x, List.mem_cons_of_mem b hx, by simp [aggRow, hx2]⟩
    · rw [hout', hbk]; rfl


/-- C10: for fewer than two candles `resample_chart_data` returns `[]`;
for two or more candles and a target interval outside
`{"15M", "30M", "1H", "4H"}` it returns the input unchanged. -/

theorem resample_unsupported_or_short (data : List Candle) (target : String) :
    (data.length < 2 → resample_chart_data data target = []) ∧
    (2 ≤ data.length → target ∉ ["15M", "30M", "1H", "4H"] →
      resample_chart_data data target = data) := by
  constructor
  · intro h
    rw [resample_chart_data, if_pos h]
  · intro h2 hmem
    simp only [List.mem_cons, List.mem_singleton, not_or] at hmem
    have hmap : timeframe_mapping target = none := by
      simp [timeframe_mapping, hmem.1, hmem.2.1, hmem.2.2.1, hmem.2.2.2]
    rw [resample_chart_data, if_neg (by omega), hmap]


/-- Witness for `resample_unsupported_or_short` at concrete inputs:
a single candle with "15M" yields `[]`; five candles with the unsupported
"1W" come back unchanged. -/

theorem resample_unsupported_or_short_witness :
    resample_chart_data [⟨0, 10, 12, 9, 11, 100⟩] "15M" = [] ∧
    resample_chart_data sampleCandles "1W" = sampleCandles :=
  ⟨(resample_unsupported_or_short [⟨0, 10, 12, 9, 11, 100⟩] "15M").1 (by decide),
   (resample_unsupported_or_short sampleCandles "1W").2 (by decide) (by decide)⟩


/-- Counterexample to C3 as stated: "1D" (86400 s) is a multiple of the
5-minute base resolution and all five sample candles fall into the single
day bucket 0, yet `resample_chart_data` returns the five input candles
unchanged instead of exactly one aggregated candle (no output candle
carries the summed volume 500). -/

theorem resample_claim_counterexample :
    resample_chart_data sampleCandles "1D" = sampleCandles ∧
    (resample_chart_data sampleCandles "1D").length = 5 ∧
    (∀ c ∈ sampleCandles, c.time / 86400 = 0) ∧
    (∀ out ∈ resample_chart_data sampleCandles "1D", out.volume ≠ 500) := by
  decide


/-- Witness for `resample_supported_bucket_spec`: the five sample candles
with target "1H" produce exactly one output row for bucket 0. -/

theorem resample_supported_bucket_spec_witness :
    (resample_chart_data sampleCandles "1H").countP
      (fun o => o.time == 0 * ruleSeconds "1h") = 1 :=
  (resample_supported_bucket_spec sampleCandles "1H" "1h" rfl (by decide)
      (by decide)).1 0 (by decide)


/-- C4: a symbol touched at `T` and never touched again is absent from
`get_active_symbols` at any `now ≥ T + 15`, and that call also evicts it
from the stored active set — in both the local-memory and the Redis
branch. -/

theorem active_symbol_expires (lst : LocalStorage) (rst : RedisStore)
    (s : String) (T now : ℚ) (h : T + 15 ≤ now) :
    s ∉ (local_get_active_symbols (local_add_active_symbol lst s T) now).1 ∧
    s ∉ (local_get_active_symbols (local_add_active_symbol lst s T) now).2.active ∧
    s ∉ (redis_get_active_symbols (redis_add_active_symbol rst s T) now).1 ∧
    s ∉ (redis_get_active_symbols (redis_add_active_symbol rst s T) now).2.members := by
  have hhl : (local_add_active_symbol lst s T).heartbeats s = some (T + 15) := by
    simp [local_add_active_symbol]
  have hhr : (redis_add_active_symbol rst s T).heartbeatExpiry s = some (T + 15) := by
    simp [redis_add_active_symbol]
  have hlocal : localAlive (local_add_active_symbol lst s T) now s = false := by
    simp only [localAlive, hhl, decide_eq_false_iff_not, not_lt]
    linarith
  have hredis : heartbeatExists (redis_add_active_symbol rst s T) now s = false := by
    simp only [heartbeatExists, hhr, decide_eq_false_iff_not, not_lt]
    linarith
  refine ⟨?_, ?_, ?_, ?_⟩
  · intro hmem
    have := (List.mem_filter.1 hmem).2
    rw [hlocal] at this
    cases this
  · intro hmem
    have := (List.mem_filter.1 hmem).2
    rw [hlocal] at this
    cases this
  · intro hmem
    have := (List.mem_filter.1 hmem).2
    rw [hredis] at this
    cases this
  · intro hmem
    have := (List.mem_filter.1 hmem).2
    rw [hredis] at this
    cases this


/-- Witness for `active_symbol_expires`: touch "AAPL.US" at time 0, list at
time 15. -/

theorem active_symbol_expires_witness :
    ((0 : ℚ) + 15 ≤ 15) ∧
    ("AAPL.US" ∉
        (local_get_active_symbols
          (local_add_active_symbol emptyLocalStorage "AAPL.US" 0) 15).1 ∧
      "AAPL.US" ∉
        (local_get_active_symbols
          (local_add_active_symbol emptyLocalStorage "AAPL.US" 0) 15).2.active ∧
      "AAPL.US" ∉
        (redis_get_active_symbols
          (redis_add_active_symbol ⟨[], fun _ => none⟩ "AAPL.US" 0) 15).1 ∧
      "AAPL.US" ∉
        (redis_get_active_symbols
          (redis_add_active_symbol ⟨[], fun _ => none⟩ "AAPL.US" 0) 15).2.members) :=
  ⟨by norm_num,
   active_symbol_expires emptyLocalStorage ⟨[], fun _ => none⟩ "AAPL.US" 0 15
     (by norm_num)⟩


/-- C7: after the first completed `_get_connection` call the manager is
marked checked, and every subsequent call — under any later environment,
i.e. without probing again — returns the very same choice and leaves the
state (in particular `use_redis`) unchanged. -/

theorem get_connection_decided_once (env : ProbeEnv) (st : ManagerState) :
    (get_connection env st).2.checked = true ∧
    ∀ env' : ProbeEnv,
      get_connection env' (get_connection env st).2 =
        ((get_connection env st).1, (get_connection env st).2) := by
  rcases env with ⟨uOk, pr⟩
  rcases st with ⟨r, u, ch⟩
  cases ch <;> cases uOk <;> cases pr <;>
    simp [get_connection]


/-- C1 (the code diverges from this claim): starting from the constructor's
`is_master = False`, the election loop never sets `is_master` — every
iteration's `redis_client.acquire_lock` lookup raises `AttributeError`
(the method does not exist on `RedisManager`), the exception is swallowed,
and the process stays a Follower forever, whatever the lock backend would
have answered.  In particular the documented "every process is leader"
fallback is unreachable. -/

theorem manage_master_never_leader (outcomes : List Bool) :
    outcomes.foldl (fun m o => manage_master_iteration o m) false = false := by
  have hstep : ∀ o m, manage_master_iteration o m = m := by
    intro o m
    rfl
  induction outcomes with
  | nil => rfl
  | cons o os ih =>
    rw [List.foldl_cons, hstep]
    exact ih


lemma chunked50_subset (l : List String) :
    ∀ ch ∈ chunked50 l, ∀ x ∈ ch, x ∈ l := by
  induction l using chunked50.induct with
  | case1 =>
    intro ch hch
    rw [chunked50] at hch
    cases hch
  | case2 x xs ih =>
    intro ch hch y hy
    rw [chunked50] at hch
    rcases List.mem_cons.1 hch with h | h
    · exact List.take_subset _ _ (h ▸ hy)
    · exact List.drop_subset _ _ (ih ch h y hy)


/-- Counterexample to C2 as stated: with an empty registry (the symbol
"BTC-USD.CC" was never inserted), the FMP poller lane still includes it in
the upstream fetch it issues. -/

theorem poller_lane_counterexample :
    "BTC-USD.CC" ∉ ([] : List String) ∧
    "BTC-USD.CC" ∈ poll_fmp_fetch_symbols := by
  decide


/-- C2 (amended): the EODHD lane fetches only registry symbols — every
chunk it sends upstream is a subset of the active list — while the FMP and
Yahoo lanes poll fixed VIP lists; hence a symbol absent from the registry
and outside those fixed lists is included in no lane's upstream fetch. -/

theorem absent_symbol_not_fetched (active_list : List String) (s : String)
    (h1 : s ∉ active_list) (h2 : s ∉ FMP_ASSETS)
    (h3 : s ∉ YAHOO_MAP.map Prod.fst) :
    s ∉ poll_fmp_fetch_symbols ∧ s ∉ poll_yahoo_fetch_symbols ∧
    ∀ chunk ∈ poll_eodhd_fetch_chunks active_list, s ∉ chunk := by
  refine ⟨h2, h3, ?_⟩
  intro chunk hchunk hs
  have hmem := chunked50_subset (eodhd_targets active_list) chunk hchunk s hs
  exact h1 (List.mem_filter.1 hmem).1


/-- Witness for `absent_symbol_not_fetched`: "MSFT.US" absent from a
registry that holds only "TSLA.US". -/

theorem absent_symbol_not_fetched_witness :
    "MSFT.US" ∉ poll_fmp_fetch_symbols ∧
    "MSFT.US" ∉ poll_yahoo_fetch_symbols ∧
    ∀ chunk ∈ poll_eodhd_fetch_chunks ["TSLA.US"], "MSFT.US" ∉ chunk :=
  absent_symbol_not_fetched ["TSLA.US"] "MSFT.US" (by decide) (by decide)
    (by decide)


lemma fold_disconnect_apply (dead : List ℕ) (socks : Sockets) (key k : String) :
    (dead.foldl (fun s ws => consumer_disconnect s ws key) socks) k =
      if k = key then dead.foldl (fun l ws => l.erase ws) (socks key)
      else socks k := by
  induction dead generalizing socks with
  | nil => by_cases h : k = key <;> simp [h]
  | cons w ws ih =>
    rw [List.foldl_cons, List.foldl_cons, ih]
    by_cases h : k = key <;> simp [h, consumer_disconnect]


lemma foldl_erase_cons_of_ne (dead : List ℕ) (x : ℕ) (xs : List ℕ)
    (h : ∀ y ∈ dead, y ≠ x) :
    dead.foldl (fun acc w => acc.erase w) (x :: xs) =
      x :: dead.foldl (fun acc w => acc.erase w) xs := by
  induction dead generalizing xs with
  | nil => rfl
  | cons y ys ih =>
    have hyx : y ≠ x := h y (List.mem_cons_self y ys)
    rw [List.foldl_cons, List.foldl_cons,
      List.erase_cons_tail (by simpa using fun hxy => hyx hxy.symm)]
    exact ih _ (fun z hz => h z (List.mem_cons_of_mem y hz))


/-- Erasing, one at a time, exactly the elements satisfying `p` leaves
exactly the elements not satisfying `p`, in order. -/

lemma foldl_erase_filter (l : List ℕ) (p : ℕ → Bool) :
    (l.filter p).foldl (fun acc x => acc.erase x) l =
      l.filter (fun x => !(p x)) := by
  induction l with
  | nil => rfl
  | cons x xs ih =>
    by_cases hx : p x
    · rw [List.filter_cons, if_pos hx, List.foldl_cons, List.erase_cons_head,
        List.filter_cons, if_neg (by simp [hx])]
      exact ih
    · rw [List.filter_cons, if_neg (by simpa using hx)]
      have hne : ∀ y ∈ xs.filter p, y ≠ x := by
        intro y hy hyx
        exact hx (hyx ▸ (List.mem_filter.1 hy).2)
      rw [foldl_erase_cons_of_ne _ _ _ hne, ih, List.filter_cons,
        if_pos (by simp [hx])]


/-- C8: when broadcasting a tick to `key`'s subscriber list and the sends
to exactly the connections in `D = filter sendFails` fail, afterwards
`key`'s list equals the previous list with exactly the members of `D`
removed (every non-failing connection stays, in order), and every other
symbol's list is untouched. -/

theorem broadcast_removes_exactly_failed (socks : Sockets) (key : String)
    (sendFails : ℕ → Bool) (k : String) (hk : k ≠ key) :
    broadcast_to_list socks key sendFails key =
      (socks key).filter (fun ws => !(sendFails ws)) ∧
    broadcast_to_list socks key sendFails k = socks k := by
  unfold broadcast_to_list
  by_cases hempty : socks key = []
  · rw [if_pos hempty, hempty]
    simp
  · rw [if_neg hempty]
    constructor
    · rw [fold_disconnect_apply, if_pos rfl, foldl_erase_filter]
    · rw [fold_disconnect_apply, if_neg hk]


/-- Witness for `broadcast_removes_exactly_failed`: the send to connection
2 fails; only 2 is dropped and "MSFT.US" is untouched. -/

theorem broadcast_removes_exactly_failed_witness :
    broadcast_to_list socketsFixture "AAPL.US" (fun ws => ws == 2) "AAPL.US" =
      [1, 3] ∧
    broadcast_to_list socketsFixture "AAPL.US" (fun ws => ws == 2) "MSFT.US" =
      [4] := by
  have h := broadcast_removes_exactly_failed socketsFixture "AAPL.US"
    (fun ws => ws == 2) "MSFT.US" (by decide)
  exact ⟨h.1.trans (by decide), h.2.trans (by decide)⟩


/-- C9: whenever a Fyers push message is handled while `is_master` is
false, nothing is published to the Data Bus. -/

theorem on_message_silent_when_not_master (msg : FyersMsg) :
    on_message false msg = none := by
  rfl


lemma websocket_endpoint_iteration_registry (registry : LocalStorage)
    (fetch : Option LiveQuote) (sent : List WsPayload) :
    (websocket_endpoint_iteration registry fetch sent).1 = registry := by
  rcases fetch with _ | q
  · rfl
  · rcases hq : q.price with _ | p
    · simp [websocket_endpoint_iteration, hq]
    · by_cases hp : p = 0 <;> simp [websocket_endpoint_iteration, hq, hp]


lemma websocket_endpoint_run_registry (registry : LocalStorage)
    (fetches : List (Option LiveQuote)) :
    (websocket_endpoint_run registry fetches).1 = registry := by
  suffices h : ∀ (sent : List WsPayload),
      (fetches.foldl (fun acc f => websocket_endpoint_iteration acc.1 f acc.2)
        (registry, sent)).1 = registry by
    exact h []
  induction fetches generalizing registry with
  | nil => intro sent; rfl
  | cons f fs ih =>
    intro sent
    rw [List.foldl_cons]
    have hreg := websocket_endpoint_iteration_registry registry f sent
    calc (fs.foldl (fun acc f => websocket_endpoint_iteration acc.1 f acc.2)
            (websocket_endpoint_iteration registry f sent)).1
        = (websocket_endpoint_iteration registry f sent).1 := by
          rw [show websocket_endpoint_iteration registry f sent =
              ((websocket_endpoint_iteration registry f sent).1,
               (websocket_endpoint_iteration registry f sent).2) from rfl]
          exact ih _ _
      _ = registry := hreg


/-- C6 (the code diverges from this claim): a client connects for `symbol`
(`StreamConsumer.connect` touches the registry once, at time 0); from then
on the live endpoint only runs fetch→send iterations — it never reads the
client's inbound keep-alive messages and never re-invokes
`add_active_symbol` — so whatever the fetches return, the registry is
exactly the connect-time state and `get_active_symbols` at time TTL = 15
no longer lists the symbol, even while the client keeps sending pings. -/

theorem live_endpoint_never_refreshes_interest (ws : ℕ) (symbol : String)
    (fetches : List (Option LiveQuote)) :
    (websocket_endpoint_run
        (consumer_connect (fun _ => []) emptyLocalStorage ws symbol 0).2
        fetches).1 =
      (consumer_connect (fun _ => []) emptyLocalStorage ws symbol 0).2 ∧
    (local_get_active_symbols
        (websocket_endpoint_run
          (consumer_connect (fun _ => []) emptyLocalStorage ws symbol 0).2
          fetches).1 15).1 = [] := by
  refine ⟨websocket_endpoint_run_registry _ _, ?_⟩
  rw [websocket_endpoint_run_registry]
  simp [local_get_active_symbols, consumer_connect, local_add_active_symbol,
    emptyLocalStorage, localAlive]


/-! ### Character lemmas -/


lemma char_ofNat_toNat {n : ℕ} (h1 : 65 ≤ n) (h2 : n ≤ 90) :
    (Char.ofNat n).toNat = n := by
  interval_cases n <;> decide


lemma char_toUpper_idem (c : Char) : c.toUpper.toUpper = c.toUpper := by
  unfold Char.toUpper
  by_cases h : c.toNat ≥ 97 ∧ c.toNat ≤ 122
  · rw [if_pos h]
    have ht : (Char.ofNat (c.toNat - 32)).toNat = c.toNat - 32 :=
      char_ofNat_toNat (by omega) (by omega)
    rw [if_neg (by omega)]
  · rw [if_neg h, if_neg h]


lemma map_eq_self_of {α : Type*} (f : α → α) (l : List α)
    (h : ∀ c ∈ l, f c = c) : l.map f = l := by
  induction l with
  | nil => rfl
  | cons a t ih =>
    rw [List.map_cons, h a (List.mem_cons_self a t),
      ih (fun c hc => h c (List.mem_cons_of_mem a hc))]


/-! ### Strip lemmas -/


lemma dropWhile_head_false {p : Char → Bool} (l : List Char) (c : Char)
    (h : (l.dropWhile p).head? = some c) : p c = false := by
  induction l with
  | nil => cases h
  | cons a t ih =>
    rw [List.dropWhile_cons] at h
    by_cases ha : p a
    · rw [if_pos ha] at h
      exact ih h
    · rw [if_neg ha] at h
      cases h
      simpa using ha


lemma dropWhile_eq_self {p : Char → Bool} (l : List Char)
    (h : ∀ c, l.head? = some c → p c = false) : l.dropWhile p = l := by
  cases l with
  | nil => rfl
  | cons a t => rw [List.dropWhile_cons, if_neg (by simp [h a rfl])]


lemma getLast?_of_suffix {v w : List Char} (h : v <:+ w) (hv : v ≠ []) :
    v.getLast? = w.getLast? := by
  obtain ⟨t, rfl⟩ := h
  rcases v with _ | ⟨a, l⟩
  · exact absurd rfl hv
  · rw [List.getLast?_append, List.getLast?_cons, Option.or]


lemma pyStrip_head {s : List Char} {c : Char}
    (h : (pyStrip s).head? = some c) : c.isWhitespace = false := by
  unfold pyStrip at h
  rw [List.head?_reverse] at h
  have hne : (s.dropWhile Char.isWhitespace).reverse.dropWhile
      Char.isWhitespace ≠ [] := by
    intro hnil
    rw [hnil] at h
    cases h
  have hsuf := List.dropWhile_suffix
    (l := (s.dropWhile Char.isWhitespace).reverse) Char.isWhitespace
  rw [getLast?_of_suffix hsuf hne, List.getLast?_reverse] at h
  exact dropWhile_head_false _ _ h


lemma pyStrip_getLast {s : List Char} {c : Char}
    (h : (pyStrip s).getLast? = some c) : c.isWhitespace = false := by
  unfold pyStrip at h
  rw [List.getLast?_reverse] at h
  exact dropWhile_head_false _ _ h


lemma pyStrip_subset (s : List Char) : pyStrip s ⊆ s := by
  intro c hc
  unfold pyStrip at hc
  rw [List.mem_reverse] at hc
  have h1 := (List.dropWhile_suffix
    (l := (s.dropWhile Char.isWhitespace).reverse) Char.isWhitespace).subset hc
  rw [List.mem_reverse] at h1
  exact (List.dropWhile_suffix (l := s) Char.isWhitespace).subset h1


lemma pyStrip_eq_self (s : List Char)
    (h1 : ∀ c, s.head? = some c → c.isWhitespace = false)
    (h2 : ∀ c, s.getLast? = some c → c.isWhitespace = false) :
    pyStrip s = s := by
  unfold pyStrip
  rw [dropWhile_eq_self s h1,
    dropWhile_eq_self s.reverse (fun c hc =>
      h2 c (by rwa [List.head?_reverse] at hc)),
    List.reverse_reverse]


/-! ### Replacement lemmas -/


lemma replaceNS_pat (l : List Char) :
    replaceNS ('.' :: 'N' :: 'S' :: l) = '.' :: 'N' :: 'S' :: 'E' :: replaceNS l :=
  rfl


lemma replaceNS_cons_ne (c : Char) (l : List Char)
    (h : ¬ (c = '.' ∧ ∃ l', l = 'N' :: 'S' :: l')) :
    replaceNS (c :: l) = c :: replaceNS l := by
  rw [replaceNS.eq_def]
  split
  · rename_i rest heq
    rw [List.cons.injEq] at heq
    obtain ⟨hc, hl⟩ := heq
    exact absurd ⟨hc, rest, hl⟩ h
  · rename_i c' rest' _ heq
    rw [List.cons.injEq] at heq
    rw [heq.1, heq.2]
  · rename_i heq
    cases heq


lemma replaceNS_append_pat (s : List Char) :
    replaceNS (s ++ ['.', 'N', 'S']) = replaceNS s ++ ['.', 'N', 'S', 'E'] := by
  induction s using replaceNS.induct with
  | case1 rest ih =>
    rw [List.cons_append, List.cons_append, List.cons_append, replaceNS_pat,
      replaceNS_pat, ih]
    simp
  | case2 c rest h ih =>
    have hne : ¬ (c = '.' ∧ ∃ l', rest = 'N' :: 'S' :: l') := by
      rintro ⟨hc, l', hl⟩
      exact h l' hc hl
    have hne2 : ¬ (c = '.' ∧ ∃ l', rest ++ ['.', 'N', 'S'] = 'N' :: 'S' :: l') := by
      rintro ⟨hc, l', hl⟩
      rcases rest with _ | ⟨r1, rest1⟩
      · simp at hl
      · rcases rest1 with _ | ⟨r2, rest2⟩
        · rw [List.cons_append, List.nil_append, List.cons.injEq,
            List.cons.injEq] at hl
          exact absurd hl.2.1 (by decide)
        · rw [List.cons_append, List.cons_append, List.cons.injEq,
            List.cons.injEq] at hl
          exact h rest2 hc (by rw [hl.1, hl.2.1])
    rw [List.cons_append, replaceNS_cons_ne c _ hne2,
      replaceNS_cons_ne c rest hne, ih, List.cons_append]
  | case3 => rfl


lemma replaceNS_mem (l : List Char) (c : Char) (hc : c ∈ replaceNS l) :
    c ∈ l ∨ c ∈ ['.', 'N', 'S', 'E'] := by
  induction l using replaceNS.induct with
  | case1 rest ih =>
    rw [replaceNS_pat] at hc
    simp only [List.mem_cons] at hc
    rcases hc with rfl | rfl | rfl | rfl | h1
    · right; simp
    · right; simp
    · right; simp
    · right; simp
    · rcases ih h1 with h2 | h2
      · left; simp [h2]
      · right; exact h2
  | case2 d rest h ih =>
    have hne : ¬ (d = '.' ∧ ∃ l', rest = 'N' :: 'S' :: l') := by
      rintro ⟨hd, l', hl⟩
      exact h l' hd hl
    rw [replaceNS_cons_ne d rest hne] at hc
    simp only [List.mem_cons] at hc
    rcases hc with rfl | h1
    · left; simp
    · rcases ih h1 with h2 | h2
      · left; simp [h2]
      · right; exact h2
  | case3 => cases hc


lemma replaceNS_head? (l : List Char) : (replaceNS l).head? = l.head? := by
  induction l using replaceNS.induct with
  | case1 rest ih => rw [replaceNS_pat]; rfl
  | case2 d rest h ih =>
    have hne : ¬ (d = '.' ∧ ∃ l', rest = 'N' :: 'S' :: l') := by
      rintro ⟨hd, l', hl⟩
      exact h l' hd hl
    rw [replaceNS_cons_ne d rest hne]
    rfl
  | case3 => rfl


lemma replaceBO_pat (l : List Char) :
    replaceBO ('.' :: 'B' :: 'O' :: l) = '.' :: 'B' :: 'S' :: 'E' :: replaceBO l :=
  rfl


lemma replaceBO_cons_ne (c : Char) (l : List Char)
    (h : ¬ (c = '.' ∧ ∃ l', l = 'B' :: 'O' :: l')) :
    replaceBO (c :: l) = c :: replaceBO l := by
  rw [replaceBO.eq_def]
  split
  · rename_i rest heq
    rw [List.cons.injEq] at heq
    obtain ⟨hc, hl⟩ := heq
    exact absurd ⟨hc, rest, hl⟩ h
  · rename_i c' rest' _ heq
    rw [List.cons.injEq] at heq
    rw [heq.1, heq.2]
  · rename_i heq
    cases heq


lemma replaceBO_append_pat (s : List Char) :
    replaceBO (s ++ ['.', 'B', 'O']) = replaceBO s ++ ['.', 'B', 'S', 'E'] := by
  induction s using replaceBO.induct with
  | case1 rest ih =>
    rw [List.cons_append, List.cons_append, List.cons_append, replaceBO_pat,
      replaceBO_pat, ih]
    simp
  | case2 c rest h ih =>
    have hne : ¬ (c = '.' ∧ ∃ l', rest = 'B' :: 'O' :: l') := by
      rintro ⟨hc, l', hl⟩
      exact h l' hc hl
    have hne2 : ¬ (c = '.' ∧ ∃ l', rest ++ ['.', 'B', 'O'] = 'B' :: 'O' :: l') := by
      rintro ⟨hc, l', hl⟩
      rcases rest with _ | ⟨r1, rest1⟩
      · simp at hl
      · rcases rest1 with _ | ⟨r2, rest2⟩
        · rw [List.cons_append, List.nil_append, List.cons.injEq,
            List.cons.injEq] at hl
          exact absurd hl.2.1 (by decide)
        · rw [List.cons_append, List.cons_append, List.cons.injEq,
            List.cons.injEq] at hl
          exact h rest2 hc (by rw [hl.1, hl.2.1])
    rw [List.cons_append, replaceBO_cons_ne c _ hne2,
      replaceBO_cons_ne c rest hne, ih, List.cons_append]
  | case3 => rfl


lemma replaceBO_mem (l : List Char) (c : Char) (hc : c ∈ replaceBO l) :
    c ∈ l ∨ c ∈ ['.', 'B', 'S', 'E'] := by
  induction l using replaceBO.induct with
  | case1 rest ih =>
    rw [replaceBO_pat] at hc
    simp only [List.mem_cons] at hc
    rcases hc with rfl | rfl | rfl | rfl | h1
    · right; simp
    · right; simp
    · right; simp
    · right; simp
    · rcases ih h1 with h2 | h2
      · left; simp [h2]
      · right; exact h2
  | case2 d rest h ih =>
    have hne : ¬ (d = '.' ∧ ∃ l', rest = 'B' :: 'O' :: l') := by
      rintro ⟨hd, l', hl⟩
      exact h l' hd hl
    rw [replaceBO_cons_ne d rest hne] at hc
    simp only [List.mem_cons] at hc
    rcases hc with rfl | h1
    · left; simp
    · rcases ih h1 with h2 | h2
      · left; simp [h2]
      · right; exact h2
  | case3 => cases hc


lemma replaceBO_head? (l : List Char) : (replaceBO l).head? = l.head? := by
  induction l using replaceBO.induct with
  | case1 rest ih => rw [replaceBO_pat]; rfl
  | case2 d rest h ih =>
    have hne : ¬ (d = '.' ∧ ∃ l', rest = 'B' :: 'O' :: l') := by
      rintro ⟨hd, l', hl⟩
      exact h l' hd hl
    rw [replaceBO_cons_ne d rest hne]
    rfl
  | case3 => rfl


/-! ### Branch-routing helpers -/


lemma replaceNS_nil : replaceNS [] = [] := rfl


lemma replaceBO_nil : replaceBO [] = [] := rfl


lemma suffix_eq_of_length {l₁ l₂ l : List Char} (h1 : l₁ <:+ l) (h2 : l₂ <:+ l)
    (hlen : l₁.length = l₂.length) : l₁ = l₂ := by
  obtain ⟨t1, rfl⟩ := h1
  obtain ⟨t2, ht⟩ := h2
  have hl : t1.length = t2.length := by
    have := congrArg List.length ht
    simp only [List.length_append] at this
    omega
  exact ((List.append_inj ht hl.symm).2).symm


lemma not_suffix_of_getLast?_ne {p w : List Char} (hp : p ≠ [])
    (h : p.getLast? ≠ w.getLast?) : ¬ p <:+ w :=
  fun hs => h (getLast?_of_suffix hs hp)


lemma ne_of_getLast?_ne {a b : List Char} (h : a.getLast? ≠ b.getLast?) :
    a ≠ b := fun he => h (by rw [he])


/-- On an input that is already upper-cased (character-wise fixed) and
stripped, `format_symbol_for_eodhd` is just the branch chain. -/

lemma format_eval_fixed (out : List Char) (hne : out ≠ [])
    (hup : ∀ c ∈ out, c.toUpper = c)
    (hhd : ∀ c, out.head? = some c → c.isWhitespace = false)
    (hlast : ∀ c, out.getLast? = some c → c.isWhitespace = false) :
    format_symbol_for_eodhd out = format_core out := by
  have h1 : pyUpper out = out := map_eq_self_of _ _ hup
  rw [format_symbol_for_eodhd, if_neg hne, h1, pyStrip_eq_self out hhd hlast]


lemma format_core_eq_self (out : List Char)
    (h1 : ¬ ['.', 'N', 'S'] <:+ out) (h2 : ¬ ['.', 'B', 'O'] <:+ out)
    (h3 : out ≠ "^NSEI".toList) (h4 : out ≠ "^NSEBANK".toList)
    (h5 : out ≠ "^BSESN".toList) (h6 : out ≠ "^GSPC".toList)
    (h7 : out ≠ "^DJI".toList) (h8 : out ≠ "^IXIC".toList)
    (h9 : out ≠ "^N225".toList) (h10 : out ≠ "^GDAXI".toList)
    (h11 : out ≠ "BTC-USD".toList) (h12 : out ≠ "ETH-USD".toList)
    (h13 : '.' ∈ out) :
    format_core out = out := by
  rw [format_core,
    if_neg (fun hb => h1 (List.isSuffixOf_iff_suffix.1 hb)),
    if_neg (fun hb => h2 (List.isSuffixOf_iff_suffix.1 hb)),
    if_neg h3, if_neg h4, if_neg h5, if_neg h6, if_neg h7, if_neg h8,
    if_neg h9, if_neg h10, if_neg h11, if_neg h12, if_neg (not_not_intro h13)]


/-- A symbol ending in 'E' (the shape of both replacement outputs) that
contains a dot takes the final passthrough branch. -/

lemma format_core_eq_self_of_lastE (out : List Char)
    (hlastE : out.getLast? = some 'E') (hdot : '.' ∈ out) :
    format_core out = out := by
  refine format_core_eq_self out
    (not_suffix_of_getLast?_ne (by decide) (by rw [hlastE]; decide))
    (not_suffix_of_getLast?_ne (by decide) (by rw [hlastE]; decide))
    (ne_of_getLast?_ne (by rw [hlastE]; decide))
    (ne_of_getLast?_ne (by rw [hlastE]; decide))
    (ne_of_getLast?_ne (by rw [hlastE]; decide))
    (ne_of_getLast?_ne (by rw [hlastE]; decide))
    (ne_of_getLast?_ne (by rw [hlastE]; decide))
    (ne_of_getLast?_ne (by rw [hlastE]; decide))
    (ne_of_getLast?_ne (by rw [hlastE]; decide))
    (ne_of_getLast?_ne (by rw [hlastE]; decide))
    (ne_of_getLast?_ne (by rw [hlastE]; decide))
    (ne_of_getLast?_ne (by rw [hlastE]; decide))
    hdot


/-- A symbol ending in the literal ".US" suffix takes the final
passthrough branch. -/

lemma format_core_eq_self_of_US (out : List Char)
    (hsufUS : ['.', 'U', 'S'] <:+ out) : format_core out = out := by
  have hlastS : out.getLast? = some 'S' :=
    (getLast?_of_suffix hsufUS (by decide)).symm ▸ rfl
  refine format_core_eq_self out
    (fun hs => absurd (suffix_eq_of_length hs hsufUS rfl) (by decide))
    (fun hs => absurd (suffix_eq_of_length hs hsufUS rfl) (by decide))
    (ne_of_getLast?_ne (by rw [hlastS]; decide))
    (ne_of_getLast?_ne (by rw [hlastS]; decide))
    (ne_of_getLast?_ne (by rw [hlastS]; decide))
    (ne_of_getLast?_ne (by rw [hlastS]; decide))
    (ne_of_getLast?_ne (by rw [hlastS]; decide))
    (ne_of_getLast?_ne (by rw [hlastS]; decide))
    (ne_of_getLast?_ne (by rw [hlastS]; decide))
    (ne_of_getLast?_ne (by rw [hlastS]; decide))
    (ne_of_getLast?_ne (by rw [hlastS]; decide))
    (ne_of_getLast?_ne (by rw [hlastS]; decide))
    (hsufUS.subset (by decide))


/-- The branch chain, applied to an upper-cased stripped symbol, yields a
fixed point of `format_symbol_for_eodhd`. -/

lemma format_core_fixed (sym : List Char)
    (hup : ∀ c ∈ sym, c.toUpper = c)
    (hhd : ∀ c, sym.head? = some c → c.isWhitespace = false)
    (hlast : ∀ c, sym.getLast? = some c → c.isWhitespace = false) :
    format_symbol_for_eodhd (format_core sym) = format_core sym := by
  rw [format_core]
  by_cases hNS : ['.', 'N', 'S'].isSuffixOf sym
  · rw [if_pos hNS]
    obtain ⟨u, hu⟩ := List.isSuffixOf_iff_suffix.1 hNS
    subst hu
    rw [replaceNS_append_pat]
    have hlastE : (replaceNS u ++ ['.', 'N', 'S', 'E']).getLast? = some 'E' := by
      rw [List.getLast?_append]; rfl
    have hupOut : ∀ c ∈ replaceNS u ++ ['.', 'N', 'S', 'E'], c.toUpper = c := by
      intro c hc
      rcases List.mem_append.1 hc with h | h
      · rcases replaceNS_mem u c h with h' | h'
        · exact hup c (List.mem_append_left _ h')
        · simp only [List.mem_cons, List.not_mem_nil, or_false] at h'
          rcases h' with rfl | rfl | rfl | rfl <;> decide
      · simp only [List.mem_cons, List.not_mem_nil, or_false] at h
        rcases h with rfl | rfl | rfl | rfl <;> decide
    have hhdOut : ∀ c, (replaceNS u ++ ['.', 'N', 'S', 'E']).head? = some c →
        c.isWhitespace = false := by
      intro c hc
      rcases u with _ | ⟨a, u'⟩
      · rw [replaceNS_nil, List.nil_append] at hc
        have hc' := Option.some.inj hc
        rw [← hc']
        decide
      · have hhead : (replaceNS (a :: u')).head? = some a := by
          rw [replaceNS_head?]; rfl
        rw [List.head?_append, hhead] at hc
        have hc' : a = c := by simpa [Option.or] using hc
        rw [← hc']
        exact hhd a rfl
    have hlastOut : ∀ c, (replaceNS u ++ ['.', 'N', 'S', 'E']).getLast? = some c →
        c.isWhitespace = false := by
      intro c hc
      rw [hlastE] at hc
      rw [← Option.some.inj hc]
      decide
    rw [format_eval_fixed _ (by simp) hupOut hhdOut hlastOut]
    exact format_core_eq_self_of_lastE _ hlastE (by simp)
  rw [if_neg hNS]
  by_cases hBO : ['.', 'B', 'O'].isSuffixOf sym
  · rw [if_pos hBO]
    obtain ⟨u, hu⟩ := List.isSuffixOf_iff_suffix.1 hBO
    subst hu
    rw [replaceBO_append_pat]
    have hlastE : (replaceBO u ++ ['.', 'B', 'S', 'E']).getLast? = some 'E' := by
      rw [List.getLast?_append]; rfl
    have hupOut : ∀ c ∈ replaceBO u ++ ['.', 'B', 'S', 'E'], c.toUpper = c := by
      intro c hc
      rcases List.mem_append.1 hc with h | h
      · rcases replaceBO_mem u c h with h' | h'
        · exact hup c (List.mem_append_left _ h')
        · simp only [List.mem_cons, List.not_mem_nil, or_false] at h'
          rcases h' with rfl | rfl | rfl | rfl <;> decide
      · simp only [List.mem_cons, List.not_mem_nil, or_false] at h
        rcases h with rfl | rfl | rfl | rfl <;> decide
    have hhdOut : ∀ c, (replaceBO u ++ ['.', 'B', 'S', 'E']).head? = some c →
        c.isWhitespace = false := by
      intro c hc
      rcases u with _ | ⟨a, u'⟩
      · rw [replaceBO_nil, List.nil_append] at hc
        have hc' := Option.some.inj hc
        rw [← hc']
        decide
      · have hhead : (replaceBO (a :: u')).head? = some a := by
          rw [replaceBO_head?]; rfl
        rw [List.head?_append, hhead] at hc
        have hc' : a = c := by simpa [Option.or] using hc
        rw [← hc']
        exact hhd a rfl
    have hlastOut : ∀ c, (replaceBO u ++ ['.', 'B', 'S', 'E']).getLast? = some c →
        c.isWhitespace = false := by
      intro c hc
      rw [hlastE] at hc
      rw [← Option.some.inj hc]
      decide
    rw [format_eval_fixed _ (by simp) hupOut hhdOut hlastOut]
    exact format_core_eq_self_of_lastE _ hlastE (by simp)
  rw [if_neg hBO]
  by_cases h3 : sym = "^NSEI".toList
  · rw [if_pos h3]; decide
  rw [if_neg h3]
  by_cases h4 : sym = "^NSEBANK".toList
  · rw [if_pos h4]; decide
  rw [if_neg h4]
  by_cases h5 : sym = "^BSESN".toList
  · rw [if_pos h5]; decide
  rw [if_neg h5]
  by_cases h6 : sym = "^GSPC".toList
  · rw [if_pos h6]; decide
  rw [if_neg h6]
  by_cases h7 : sym = "^DJI".toList
  · rw [if_pos h7]; decide
  rw [if_neg h7]
  by_cases h8 : sym = "^IXIC".toList
  · rw [if_pos h8]; decide
  rw [if_neg h8]
  by_cases h9 : sym = "^N225".toList
  · rw [if_pos h9]; decide
  rw [if_neg h9]
  by_cases h10 : sym = "^GDAXI".toList
  · rw [if_pos h10]; decide
  rw [if_neg h10]
  by_cases h11 : sym = "BTC-USD".toList
  · rw [if_pos h11]; decide
  rw [if_neg h11]
  by_cases h12 : sym = "ETH-USD".toList
  · rw [if_pos h12]; decide
  rw [if_neg h12]
  by_cases hdot : '.' ∉ sym
  · rw [if_pos hdot]
    have hUS : (".US".toList : List Char) = ['.', 'U', 'S'] := rfl
    rw [hUS]
    have hsufUS : ['.', 'U', 'S'] <:+ sym ++ ['.', 'U', 'S'] := ⟨sym, rfl⟩
    have hupOut : ∀ c ∈ sym ++ ['.', 'U', 'S'], c.toUpper = c := by
      intro c hc
      rcases List.mem_append.1 hc with h | h
      · exact hup c h
      · simp only [List.mem_cons, List.not_mem_nil, or_false] at h
        rcases h with rfl | rfl | rfl <;> decide
    have hhdOut : ∀ c, (sym ++ ['.', 'U', 'S']).head? = some c →
        c.isWhitespace = false := by
      intro c hc
      rcases sym with _ | ⟨a, s'⟩
      · rw [List.nil_append] at hc
        rw [← Option.some.inj hc]
        decide
      · rw [List.head?_append] at hc
        have hc' : a = c := by simpa [Option.or] using hc
        rw [← hc']
        exact hhd a rfl
    have hlastOut : ∀ c, (sym ++ ['.', 'U', 'S']).getLast? = some c →
        c.isWhitespace = false := by
      intro c hc
      rw [List.getLast?_append] at hc
      have hc' : 'S' = c := by simpa [Option.or] using hc
      rw [← hc']
      decide
    rw [format_eval_fixed _ (by simp) hupOut hhdOut hlastOut]
    exact format_core_eq_self_of_US _ hsufUS
  rw [if_neg hdot]
  have hdotmem : '.' ∈ sym := not_not.1 hdot
  have hne : sym ≠ [] := by
    intro h
    rw [h] at hdotmem
    cases hdotmem
  rw [format_eval_fixed sym hne hup hhd hlast]
  exact format_core_eq_self sym
    (fun hs => hNS (List.isSuffixOf_iff_suffix.2 hs))
    (fun hs => hBO (List.isSuffixOf_iff_suffix.2 hs))
    h3 h4 h5 h6 h7 h8 h9 h10 h11 h12 hdotmem


/-- C5: the symbol normalizer is idempotent:
`format_symbol_for_eodhd (format_symbol_for_eodhd x) =
format_symbol_for_eodhd x` for every input string — covering the regional
`.NS`/`.BO` rules, the caret index aliases, the crypto short forms, and
the suffixless US default. -/

theorem format_symbol_for_eodhd_idempotent (s : List Char) :
    format_symbol_for_eodhd (format_symbol_for_eodhd s) =
      format_symbol_for_eodhd s := by
  by_cases hs : s = []
  · rw [hs]
    rfl
  · have hfs : format_symbol_for_eodhd s = format_core (pyStrip (pyUpper s)) := by
      rw [format_symbol_for_eodhd, if_neg hs]
    have hup : ∀ c ∈ pyStrip (pyUpper s), c.toUpper = c := by
      intro c hc
      have := pyStrip_subset (pyUpper s) hc
      rcases List.mem_map.1 this with ⟨d, _, rfl⟩
      exact char_toUpper_idem d
    rw [hfs]
    exact format_core_fixed (pyStrip (pyUpper s)) hup
      (fun c hc => pyStrip_head hc) (fun c hc => pyStrip_getLast hc)


end StellarHub
